import Mathlib

/-!
Shallow embedding of the chain-derivation and synchronization engine of
`git-pr-chain.py`.  Commit metadata extraction (the two regular expressions
over the commit message) and all git/GitHub transport are external oracles;
their per-commit results are stored as fields of `Commit`, exactly as the
Python program caches them.  Every function below is translated line by line
from the Python source.
-/

set_option autoImplicit false

namespace GitPrChain

deriving instance DecidableEq for Except

/-- Commit record, mirroring class `Commit` of `git-pr-chain.py`.
`msgTrailers` is the cached result of
`re.findall(r"^(?:git-pr-chain|GPC):\s*(.*)", commit_msg, re.MULTILINE)` and
`msgHasStop` the cached result of
`bool(re.search(r"(git-pr-chain|GPC):\s*STOP\b", commit_msg))`; the regex
engine itself is an external collaborator. -/
structure Commit where
  sha : String
  commit_msg : String
  msgTrailers : List String
  msgHasStop : Bool
  isMergeCommit : Bool
deriving DecidableEq

/-- Resolved commit: the commit together with its `not_to_be_pushed` flag and
its `gh_branch` value (`none` models Python `None`). -/
structure RC where
  c : Commit
  stopped : Bool
  branch : Option String
deriving DecidableEq

/-- Fatal errors raised by the engine (`fatal(...)` calls), with the data the
message interpolates. -/
inductive GPCErr where
  | multipleTrailers (sha : String)
  | firstCommitUnannotated (sha : String)
  | mergeCommits (shas : List String)
  | repeatedBranches (branches : List (Option String))
  | commitsWithoutBranch (shas : List String)
  | multipleOpenPRs (branch : String) (numbers : List Nat)
  | expectedOnePR (branch : String) (count : Nat)
deriving DecidableEq

/-- Python truthiness of a `gh_branch` value: `None` and the empty string are
falsy. -/
def truthy : Option String → Bool
  | none => false
  | some s => s ≠ ""

/-- One step of `Commit.gh_branch`: given the parent's `gh_branch` value `pb`
and this commit's `not_to_be_pushed` flag `s`, compute this commit's
`gh_branch`.  The `not_to_be_pushed` check comes first, then the trailer
matches; two or more trailer lines are fatal. -/
def ghBranchStep (pb : Option String) (s : Bool) (c : Commit) :
    Except GPCErr (Option String) :=
  if s then .ok none
  else
    match c.msgTrailers with
    | [] => .ok pb
    | [b] => .ok (some b)
    | _ => .error (.multipleTrailers c.sha)

/-- Resolve a chain of commits in order, threading the parent's `gh_branch`
value `pb` and the sticky `not_to_be_pushed` flag `st`
(`not_to_be_pushed = parent.not_to_be_pushed or own STOP match`). -/
def resolveChain (pb : Option String) (st : Bool) :
    List Commit → Except GPCErr (List RC)
  | [] => .ok []
  | c :: cs => do
    let s := st || c.msgHasStop
    let b ← ghBranchStep pb s c
    let rs ← resolveChain b s cs
    .ok (⟨c, s, b⟩ :: rs)

/-- Resolution as performed by the loop in `branch_commits`: the commits'
`gh_branch` properties are forced in chain order, and a falsy value on the
very first commit is fatal
(`fatal(f"First commit ({c.sha}) must have a 'git-pr-chain:' annotation!")`)
before any later commit is examined. -/
def resolveAndCheck : List Commit → Except GPCErr (List RC)
  | [] => .ok []
  | c :: rest => do
    let b ← ghBranchStep none c.msgHasStop c
    if truthy b then do
      let rs ← resolveChain b c.msgHasStop rest
      .ok (⟨c, c.msgHasStop, b⟩ :: rs)
    else .error (.firstCommitUnannotated c.sha)

/-- Adjacency grouping by `gh_branch`, as `itertools.groupby(commits, lambda
c: c.gh_branch)` produces it: maximal runs of consecutive equal branch
values. -/
def groupRuns (rs : List RC) : List (Option String × List RC) :=
  rs.foldr
    (fun r acc =>
      match acc with
      | [] => [(r.branch, [r])]
      | (b, run) :: rest =>
        if r.branch = b then (b, r :: run) :: rest
        else (r.branch, [r]) :: (b, run) :: rest)
    []

/-- Branch value of each run, in order. -/
def runKeys (rs : List RC) : List (Option String) :=
  (groupRuns rs).map (·.1)

/-- Merge commits found in the chain (`[c for c in commits if
c.is_merge_commit]`). -/
def mergeOffenders (rs : List RC) : List RC :=
  rs.filter (fun r => r.c.isMergeCommit)

/-- Branch values whose run count exceeds one (`collections.Counter` over the
group keys, keeping those with `count > 1`; the counter does not exclude
`None`). -/
def repeatedOffenders (rs : List RC) : List (Option String) :=
  (runKeys rs).dedup.filter (fun b => 1 < (runKeys rs).count b)

/-- Commits of branch-less runs strictly between the first and last run
(`grouped_commits[1:-1]` with `if not branch`). -/
def orphanOffenders (rs : List RC) : List RC :=
  (((((groupRuns rs).drop 1).dropLast).filter (fun g => !truthy g.1)).map
    (·.2)).flatten

/-- Translation of `validate_branch_commits`: merge-commit check, then the
AABA repeated-branch check, then the orphan-run check; the first failing
check is fatal with the full offender list it computed. -/
def validateBranchCommits (rs : List RC) : Except GPCErr Unit :=
  if (mergeOffenders rs).isEmpty then
    if (repeatedOffenders rs).isEmpty then
      if (orphanOffenders rs).isEmpty then .ok ()
      else .error (.commitsWithoutBranch ((orphanOffenders rs).map (fun r => r.c.sha)))
    else .error (.repeatedBranches (repeatedOffenders rs))
  else .error (.mergeCommits ((mergeOffenders rs).map (fun r => r.c.sha)))

/-- Translation of `branch_commits`: resolve all branches (with the
first-commit annotation check), then validate, then return the resolved
chain. -/
def branchCommits (cs : List Commit) : Except GPCErr (List RC) := do
  let rs ← resolveAndCheck cs
  match validateBranchCommits rs with
  | .ok _ => .ok rs
  | .error e => .error e

/-- Translation of `grouped_commits`: group the validated chain, keep only
runs with a truthy branch whose first commit is pushable, and prepend the
configured branch prefix. -/
def groupedCommits (pfx : String) (cs : List Commit) :
    Except GPCErr (List (String × List RC)) := do
  let rs ← branchCommits cs
  .ok (((groupRuns rs).filter
        (fun g => truthy g.1 && !((g.2.head?.map (·.stopped)).getD false))).map
      (fun g => (pfx ++ (g.1.getD ""), g.2)))

/-- Validation applied directly to a resolved chain (no first-commit check);
used to exhibit where in the pipeline a given input is rejected. -/
def resolveThenValidate (cs : List Commit) : Except GPCErr Unit := do
  let rs ← resolveChain none false cs
  validateBranchCommits rs

/-- Declared branch labels of a chain, in order (the concatenation of all
trailer matches). -/
def labels : List Commit → List String
  | [] => []
  | c :: cs => c.msgTrailers ++ labels cs

/-- First commit, in chain order, that is not stopped and carries two or more
branch trailers (the commit whose `gh_branch` access is the first to abort). -/
def firstMultiTrailer : Bool → List Commit → Option Commit
  | _, [] => none
  | st, c :: cs =>
    let s := st || c.msgHasStop
    if s = false ∧ 2 ≤ c.msgTrailers.length then some c
    else firstMultiTrailer s cs

/-- Commit identifiers interpolated into a fatal message. -/
def reportedIds : GPCErr → List String
  | .multipleTrailers s => [s]
  | .firstCommitUnannotated s => [s]
  | .mergeCommits l => l
  | .repeatedBranches l => l.map (fun b => b.getD "")
  | .commitsWithoutBranch l => l
  | .multipleOpenPRs b _ => [b]
  | .expectedOnePR b _ => [b]

/-- Open pull request as consumed by the engine: `number`, `base.ref`, and
`body`.  The head branch is the key under which the record is indexed. -/
structure PRrec where
  number : Nat
  baseRef : String
  body : String
deriving DecidableEq

/-- Mutating calls issued against git or the hosting service. -/
inductive Action where
  | push (branch sha : String)
  | createPR (branch base title : String)
  | editPRBase (branch base : String)
  | editPR (number : Nat) (base body : String)
deriving DecidableEq

/-- Lookup in the open-PR index (`open_prs[branch]`, a `defaultdict(list)`:
missing keys give the empty list). -/
def prsFor (openPRs : List (String × List PRrec)) (b : String) : List PRrec :=
  match openPRs.find? (fun p => p.1 == b) with
  | some p => p.2
  | none => []

/-- Append a PR under its head branch (`open_prs[branch].append(pr)`). -/
def addPR : List (String × List PRrec) → String → PRrec → List (String × List PRrec)
  | [], b, pr => [(b, [pr])]
  | (k, l) :: rest, b, pr =>
    if k == b then (k, l ++ [pr]) :: rest else (k, l) :: addPR rest b pr

/-- Pre-check shared by `set_pr_bases_to_master` and `create_and_update_prs`:
walking the segments in order, the first branch with more than one open PR is
fatal (`fatal_multiple_prs_for_branch`, listing that branch's PRs). -/
def checkMultiplePRs : List String → List (String × List PRrec) → Except GPCErr Unit
  | [], _ => .ok ()
  | b :: rest, openPRs =>
    if 2 ≤ (prsFor openPRs b).length then
      .error (.multipleOpenPRs b ((prsFor openPRs b).map (·.number)))
    else checkMultiplePRs rest openPRs

/-- First segment branch, in order, with two or more open PRs. -/
def firstAmbiguousBranch : List String → List (String × List PRrec) → Option String
  | [], _ => none
  | b :: rest, openPRs =>
    if 2 ≤ (prsFor openPRs b).length then some b
    else firstAmbiguousBranch rest openPRs

/-- Character-level "starts with" used by the substring test. -/
def startsWithChars : List Char → List Char → Bool
  | [], _ => true
  | _ :: _, [] => false
  | p :: ps, c :: cs => p == c && startsWithChars ps cs

/-- Character-level substring search. -/
def containsChars (pat : List Char) : List Char → Bool
  | [] => startsWithChars pat []
  | c :: cs => startsWithChars pat (c :: cs) || containsChars pat cs

/-- Substring test used for the `"<git-pr-chain>" not in body` check. -/
def containsSub (body pat : String) : Bool :=
  containsChars pat.data body.data

/-- Python `s.split("\n")[0]`: the first line of a commit message, used as the
title of a newly created request. -/
def firstLineAux : List Char → String → String
  | [], acc => acc
  | ch :: rest, acc => if ch = '\n' then acc else firstLineAux rest (acc.push ch)

/-- First line of a string. -/
def firstLine (s : String) : String :=
  firstLineAux s.data ""

/-- Creation loop of `create_and_update_prs`: for each segment without an
open PR, print the intent and — unless in dry-run mode — create the PR
(title taken from the first commit's message headline, base from
`base_for(idx)`) and record it back into the index.  `mk` models
`repo.create_pull` (title, base, head → record); `prev` is the previous
segment's branch, so `prev.getD master` is `base_for(idx)`. -/
def createLoop (dry : Bool) (master : String) (mk : String → String → String → PRrec) :
    List (String × List Commit) → Option String → List (String × List PRrec) →
      List Action × List (String × List PRrec)
  | [], _, idx => ([], idx)
  | (b, cs) :: rest, prev, idx =>
    if (prsFor idx b).isEmpty then
      if dry then createLoop dry master mk rest (some b) idx
      else
        let base := prev.getD master
        let title := firstLine ((cs.head?.map (·.commit_msg)).getD "")
        let pr := mk title base b
        let p := createLoop dry master mk rest (some b) (addPR idx b pr)
        (Action.createPR b base title :: p.1, p.2)
    else createLoop dry master mk rest (some b) idx

/-- Update loop of `create_and_update_prs`: each segment must now have exactly
one open PR (`fatal` otherwise — "This should not happen here!").  The body
gains an empty sentinel pair if absent; outside dry-run the delimited region
is rewritten (`rewr` models `re.sub` with `chain_desc_for`) and a single
`pr.edit(base=..., body=...)` is issued only if something changed. -/
def updateLoop (dry : Bool) (master : String) (rewr : String → String → List Commit → String) :
    List (String × List Commit) → Option String → List (String × List PRrec) →
      Except GPCErr (List Action)
  | [], _, _ => .ok []
  | (b, cs) :: rest, prev, idx =>
    match prsFor idx b with
    | [pr] =>
      let base := prev.getD master
      let body0 :=
        if containsSub pr.body "<git-pr-chain>" then pr.body
        else pr.body ++ "\n\n<git-pr-chain></git-pr-chain>"
      if dry then updateLoop dry master rewr rest (some b) idx
      else
        let body1 := rewr body0 b cs
        let acts :=
          if base ≠ pr.baseRef ∨ body1 ≠ pr.body then
            [Action.editPR pr.number base body1]
          else []
        do
          let acts2 ← updateLoop dry master rewr rest (some b) idx
          .ok (acts ++ acts2)
    | l => .error (.expectedOnePR b l.length)

/-- Translation of `create_and_update_prs`: ambiguity pre-check, creation
loop, then update loop, in that order, over the same segment list. -/
def createAndUpdatePRs (dry : Bool) (master : String)
    (segs : List (String × List Commit)) (openPRs : List (String × List PRrec))
    (mk : String → String → String → PRrec)
    (rewr : String → String → List Commit → String) : Except GPCErr (List Action) := do
  let _ ← checkMultiplePRs (segs.map (·.1)) openPRs
  let p := createLoop dry master mk segs none openPRs
  let acts2 ← updateLoop dry master rewr segs none p.2
  .ok (p.1 ++ acts2)

/-- Translation of `push_branches`: one forced push per segment, of the last
commit's sha to `refs/heads/<branch>`, suppressed entirely in dry-run mode. -/
def pushBranches (dry : Bool) (segs : List (String × List Commit)) : List Action :=
  segs.foldr
    (fun g acc =>
      (if dry then []
       else [Action.push g.1 (((g.2.getLast?).map (·.sha)).getD "")]) ++ acc)
    []

/-- Reconciliation walk of `set_pr_bases_to_master`.  `prs b` is the recorded
base of branch `b`'s open PR (or `none` when the branch has no open PR);
`seen` is `seen_branches`; the accumulator collects `branches_to_reset`.
When a PR's base occurs in `seen` at an index other than the last,
`seen_branches[idx + 1:]` plus the current branch are flagged. -/
def setPrBasesWalk (prs : String → Option String) :
    List String → List String → List String → List String
  | [], _, reset => reset
  | b :: rest, seen, reset =>
    match prs b with
    | none => setPrBasesWalk prs rest seen reset
    | some base =>
      match seen.findIdx? (fun s => s == base) with
      | none => setPrBasesWalk prs rest (seen ++ [b]) reset
      | some idx =>
        if idx + 1 = seen.length then setPrBasesWalk prs rest (seen ++ [b]) reset
        else setPrBasesWalk prs rest (seen ++ [b]) (seen.drop (idx + 1) ++ b :: reset)

/-- The accumulated `branches_to_reset` of one reconciliation run. -/
def resetBranches (segs : List String) (prs : String → Option String) : List String :=
  setPrBasesWalk prs segs [] []

/-- Branches whose PR base is actually edited: `branches_to_reset -
{upstream_master}` (a set, modeled up to order and multiplicity). -/
def emittedBaseUpdates (master : String) (segs : List String)
    (prs : String → Option String) : List String :=
  ((resetBranches segs prs).filter (fun b => b != master)).dedup

/-- Base-edit calls of `set_pr_bases_to_master`: one unconditional
`pr.edit(base=upstream_master)` per emitted branch, suppressed in dry-run. -/
def baseResetActions (dry : Bool) (master : String) (segs : List String)
    (prs : String → Option String) : List Action :=
  if dry then []
  else (emittedBaseUpdates master segs prs).map (fun b => Action.editPRBase b master)

/-- Recorded PR bases after one reconciliation run applied its resets: every
flagged branch other than the root has its base set to the root branch. -/
def prsAfter (master : String) (segs : List String) (prs : String → Option String) :
    String → Option String :=
  fun b =>
    if b ∈ resetBranches segs prs ∧ b ≠ master then (prs b).map (fun _ => master)
    else prs b

/-- Python `"a/b/c".split("/")` on the character list of a string. -/
def splitSlashAux : List Char → String → List String
  | [], acc => [acc]
  | ch :: rest, acc =>
    if ch = '/' then acc :: splitSlashAux rest ""
    else splitSlashAux rest (acc.push ch)

/-- Python `s.split("/")`. -/
def splitSlash (s : String) : List String :=
  splitSlashAux s.data ""

/-- The root branch name as the program computes it in `set_pr_bases_to_master`,
`base_for` and `cmd_merge`: `"".join(git_upstream_branch().split("/")[1:])` —
all slash-separated components after the remote name, concatenated with no
separator. -/
def upstream_master (upstream : String) : String :=
  String.join ((splitSlash upstream).drop 1)

/-- The actual branch name of the tracked upstream reference: its
slash-separated components after the remote name, rejoined with `/`. -/
def joinSlash : List String → String
  | [] => ""
  | [a] => a
  | a :: b :: rest => a ++ "/" ++ joinSlash (b :: rest)

/-- Translation of `set_pr_bases_to_master`: ambiguity pre-check, then the
reconciliation walk, then the base-edit calls, with the root name computed by
`upstream_master`. -/
def setPrBasesToMaster (dry : Bool) (upstream : String) (segs : List String)
    (openPRs : List (String × List PRrec)) : Except GPCErr (List Action) := do
  let _ ← checkMultiplePRs segs openPRs
  .ok (baseResetActions dry (upstream_master upstream) segs
        (fun b => ((prsFor openPRs b).head?).map (·.baseRef)))

/-! Concrete inputs used by counterexamples and witnesses. -/

/-- Chain whose first commit has no trailer (and no STOP), followed by an
annotated commit. -/
def c1cs : List Commit :=
  [⟨"a", "base work", [], false, false⟩,
   ⟨"b", "feat\n\ngit-pr-chain: x", ["x"], false, false⟩]

/-- PR bases of the reordered two-segment example: `feat1(base=root)`,
`feat2(base=feat1)`. -/
def c2prs : String → Option String := fun b =>
  if b = "feat1" then some "root"
  else if b = "feat2" then some "feat1"
  else none

/-- The reordered desired segment order of the example. -/
def c2segs : List String := ["feat2", "feat1"]

/-- Single-segment chain for the dry-run scenario. -/
def c3segs : List (String × List Commit) :=
  [("x", [⟨"h1", "Add x feature", ["x"], false, false⟩])]

/-- Concrete stand-in for `repo.create_pull`. -/
def c3mk : String → String → String → PRrec := fun _ _ _ => ⟨0, "", ""⟩

/-- Concrete stand-in for the `re.sub`/`chain_desc_for` body rewrite. -/
def c3rewr : String → String → List Commit → String := fun _ _ _ => ""

/-- Open-PR index holding one PR for branch `x` whose body already carries the
sentinels and whose base is already correct. -/
def c3oprs : List (String × List PRrec) :=
  [("x", [⟨5, "master", "<git-pr-chain></git-pr-chain>"⟩])]

/-- Chain with a STOP commit followed by an explicitly annotated commit. -/
def c4cs : List Commit :=
  [⟨"s1", "wip\n\nGPC: STOP", [], true, false⟩,
   ⟨"s2", "feat\n\ngit-pr-chain: y", ["y"], false, false⟩]

/-- Resolution of `c4cs`: both commits stopped, both branch-less. -/
def c4rs : List RC :=
  [⟨⟨"s1", "wip\n\nGPC: STOP", [], true, false⟩, true, none⟩,
   ⟨⟨"s2", "feat\n\ngit-pr-chain: y", ["y"], false, false⟩, true, none⟩]

/-- Chain with two duplicate-trailer offenders. -/
def c5cs : List Commit :=
  [⟨"a", "one\n\nGPC: x\nGPC: y", ["x", "y"], false, false⟩,
   ⟨"b", "two\n\nGPC: x\nGPC: z", ["x", "z"], false, false⟩]

/-- Resolved chain with two merge-commit offenders. -/
def c5rs : List RC :=
  [⟨⟨"m1", "m", ["x"], false, true⟩, false, some "x"⟩,
   ⟨⟨"m2", "m", [], false, true⟩, false, some "x"⟩]

/-- Chain with one annotated commit followed by a STOP commit: no merges and
no duplicated labels, yet the stopped suffix is dropped from the segments. -/
def c6cs : List Commit :=
  [⟨"a", "feat\n\ngit-pr-chain: x", ["x"], false, false⟩,
   ⟨"b", "wip\n\nGPC: STOP", [], true, false⟩]

/-- Fully annotated three-commit chain used as the witness input. -/
def c6wcs : List Commit :=
  [⟨"a", "one\n\ngit-pr-chain: x", ["x"], false, false⟩,
   ⟨"b", "two", [], false, false⟩,
   ⟨"c", "three\n\ngit-pr-chain: y", ["y"], false, false⟩]

/-- Resolution of `c6wcs`. -/
def c6wrs : List RC :=
  [⟨⟨"a", "one\n\ngit-pr-chain: x", ["x"], false, false⟩, false, some "x"⟩,
   ⟨⟨"b", "two", [], false, false⟩, false, some "x"⟩,
   ⟨⟨"c", "three\n\ngit-pr-chain: y", ["y"], false, false⟩, false, some "y"⟩]

/-- Resolved chain `A(br=x) -> B(br=y) -> C(br=x)` of the AABA example. -/
def c7rs : List RC :=
  [⟨⟨"a", "a", ["x"], false, false⟩, false, some "x"⟩,
   ⟨⟨"b", "b", ["y"], false, false⟩, false, some "y"⟩,
   ⟨⟨"c", "c", ["x"], false, false⟩, false, some "x"⟩]

/-- Desired segment order containing a segment literally named like the root
branch. -/
def exSegs : List String := ["master", "c", "b"]

/-- Recorded PR bases for `exSegs`: `c`'s base is stale, `b`'s base is already
the root name. -/
def exPrs : String → Option String := fun x =>
  if x = "master" then some "other"
  else if x = "c" then some "zzz"
  else if x = "b" then some "master"
  else none

/-- Segment order and bases for the idempotence witness. -/
def c8wprs : String → Option String := fun x =>
  if x = "s1" then some "root" else if x = "s2" then some "s1" else none

/-! Lemmas about the branch resolver. -/

theorem resolveChain_nil_ok {pb : Option String} {st : Bool} {rs : List RC}
    (h : resolveChain pb st [] = .ok rs) : rs = [] := by
  simpa [resolveChain] using h.symm

theorem resolveChain_cons_ok {pb : Option String} {st : Bool} {c : Commit}
    {cs : List Commit} {rs : List RC}
    (h : resolveChain pb st (c :: cs) = .ok rs) :
    ∃ b rs', ghBranchStep pb (st || c.msgHasStop) c = .ok b ∧
      resolveChain b (st || c.msgHasStop) cs = .ok rs' ∧
      rs = ⟨c, st || c.msgHasStop, b⟩ :: rs' := by
  cases hb : ghBranchStep pb (st || c.msgHasStop) c with
  | error e => simp [resolveChain, hb, Except.bind, Bind.bind] at h
  | ok b =>
    cases hr : resolveChain b (st || c.msgHasStop) cs with
    | error e => simp [resolveChain, hb, hr, Except.bind, Bind.bind] at h
    | ok rs' =>
      refine ⟨b, rs', rfl, hr, ?_⟩
      simp [resolveChain, hb, hr, Except.bind, Bind.bind] at h
      exact h.symm

theorem ghBranchStep_stopped {pb : Option String} {c : Commit} {b : Option String}
    (h : ghBranchStep pb true c = .ok b) : b = none := by
  simpa [ghBranchStep] using h.symm

/-- Once the sticky flag is on, every later commit resolves stopped and
branch-less. -/
theorem resolveChain_stopped_all {pb : Option String} {cs : List Commit}
    {rs : List RC} (h : resolveChain pb true cs = .ok rs) :
    ∀ r ∈ rs, r.stopped = true ∧ r.branch = none := by
  induction cs generalizing pb rs with
  | nil =>
    cases resolveChain_nil_ok h
    intro r hr; cases hr
  | cons c cs ih =>
    obtain ⟨b, rs', hb, hr, hrs⟩ := resolveChain_cons_ok h
    rw [Bool.true_or] at hb hr
    subst hrs
    intro r hrm
    rcases List.mem_cons.mp hrm with h1 | h1
    · subst h1
      exact ⟨by simp, ghBranchStep_stopped hb⟩
    · exact ih hr r h1

/-- A stopped resolved commit has no branch. -/
theorem resolveChain_stopped_branch_none {pb : Option String} {st : Bool}
    {cs : List Commit} {rs : List RC} (h : resolveChain pb st cs = .ok rs) :
    ∀ r ∈ rs, r.stopped = true → r.branch = none := by
  induction cs generalizing pb st rs with
  | nil =>
    cases resolveChain_nil_ok h
    intro r hr; cases hr
  | cons c cs ih =>
    obtain ⟨b, rs', hb, hr, hrs⟩ := resolveChain_cons_ok h
    subst hrs
    intro r hrm hstop
    rcases List.mem_cons.mp hrm with h1 | h1
    · subst h1
      simp only at hstop
      rw [hstop] at hb
      exact ghBranchStep_stopped hb
    · exact ih hr r h1 hstop

/-- Resolution preserves the commit list. -/
theorem resolveChain_map_c {pb : Option String} {st : Bool}
    {cs : List Commit} {rs : List RC} (h : resolveChain pb st cs = .ok rs) :
    rs.map (·.c) = cs := by
  induction cs generalizing pb st rs with
  | nil => cases resolveChain_nil_ok h; rfl
  | cons c cs ih =>
    obtain ⟨b, rs', hb, hr, hrs⟩ := resolveChain_cons_ok h
    subst hrs
    simp [ih hr]

theorem resolveChain_stop_sticky_aux :
    ∀ (cs : List Commit) (pb : Option String) (st : Bool) (rs : List RC) (i j : Nat)
      (_ : resolveChain pb st cs = .ok rs) (_ : i ≤ j) (hi : i < rs.length)
      (hj : j < rs.length),
      (rs.get ⟨i, hi⟩).stopped = true → (rs.get ⟨j, hj⟩).branch = none := by
  intro cs
  induction cs with
  | nil =>
    intro pb st rs i j h hij hi hj hstop
    cases resolveChain_nil_ok h
    exact absurd hi (by simp)
  | cons c cs ih =>
    intro pb st rs i j h hij hi hj hstop
    obtain ⟨b, rs', hb, hr, hrs⟩ := resolveChain_cons_ok h
    subst hrs
    cases j with
    | zero =>
      cases Nat.le_zero.mp hij
      have hs : (st || c.msgHasStop) = true := hstop
      rw [hs] at hb
      exact ghBranchStep_stopped hb
    | succ j2 =>
      cases i with
      | zero =>
        have hs : (st || c.msgHasStop) = true := hstop
        rw [hs] at hr
        have hmem : rs'.get ⟨j2, Nat.lt_of_succ_lt_succ hj⟩ ∈ rs' :=
          List.get_mem _ _ _
        exact ((resolveChain_stopped_all hr) _ hmem).2
      | succ i2 =>
        exact ih b (st || c.msgHasStop) rs' i2 j2 hr (Nat.le_of_succ_le_succ hij)
          (Nat.lt_of_succ_lt_succ hi) (Nat.lt_of_succ_lt_succ hj) hstop

/-- C4: for every commit in the resolved chain whose stop flag is set (by its
own STOP trailer or inherited from an ancestor via the sticky forward
propagation), that commit and every commit after it in chain order resolve to
a null branch, even when such a commit carries its own branch trailer. -/
theorem c4_stop_suffix_null (cs : List Commit) (rs : List RC) (i j : Nat)
    (h : resolveChain none false cs = .ok rs) (hij : i ≤ j)
    (hi : i < rs.length) (hj : j < rs.length)
    (hstop : (rs.get ⟨i, hi⟩).stopped = true) :
    (rs.get ⟨j, hj⟩).branch = none :=
  resolveChain_stop_sticky_aux cs none false rs i j h hij hi hj hstop

/-- C4 witness: in the chain `STOP -> (GPC: y)`, the second commit resolves
branch-less although it declares branch `y`. -/
theorem c4_witness : (c4rs.get ⟨1, by decide⟩).branch = none :=
  c4_stop_suffix_null c4cs c4rs 0 1 (by decide) (by decide) (by decide)
    (by decide) (by decide)

/-- C1 counterexample: on the chain whose first commit has no trailer,
`branch_commits` aborts at the resolution stage with the first-commit
annotation error, although validation itself accepts the resolved chain (the
null run sits at the edge, so the orphan rule is not violated). -/
theorem c1_counterexample :
    branchCommits c1cs = .error (.firstCommitUnannotated "a") ∧
    resolveThenValidate c1cs = .ok () := by decide

/-- C1 (amended): whenever the first commit of a nonempty extracted chain
resolves to a falsy branch (no trailer — an inherited value is impossible for
the first commit — or stopped), chain construction fails fatally at the
resolution stage with the upfront first-commit annotation check, before
validation runs. -/
theorem c1_amended (c : Commit) (rest : List Commit) (b : Option String)
    (hb : ghBranchStep none c.msgHasStop c = .ok b) (hfb : truthy b = false) :
    branchCommits (c :: rest) = .error (.firstCommitUnannotated c.sha) := by
  simp [branchCommits, resolveAndCheck, hb, hfb, Except.bind, Bind.bind]

/-- C1 witness: a chain whose only commit is marked STOP trips the upfront
first-commit check. -/
theorem c1_witness :
    branchCommits [⟨"z", "wip\n\nGPC: STOP", [], true, false⟩] =
      .error (.firstCommitUnannotated "z") :=
  c1_amended ⟨"z", "wip\n\nGPC: STOP", [], true, false⟩ [] none (by decide) (by decide)

/-! Lemmas about adjacency grouping. -/

theorem groupRuns_cons (r : RC) (l : List RC) :
    groupRuns (r :: l) =
      match groupRuns l with
      | [] => [(r.branch, [r])]
      | (b, run) :: rest =>
        if r.branch = b then (b, r :: run) :: rest
        else (r.branch, [r]) :: (b, run) :: rest := rfl

theorem groupRuns_cons_nil (r : RC) (l : List RC) (h : groupRuns l = []) :
    groupRuns (r :: l) = [(r.branch, [r])] := by
  rw [groupRuns_cons, h]

theorem groupRuns_cons_cons (r : RC) (l : List RC) (b : Option String)
    (run : List RC) (rest : List (Option String × List RC))
    (h : groupRuns l = (b, run) :: rest) :
    groupRuns (r :: l) =
      if r.branch = b then (b, r :: run) :: rest
      else (r.branch, [r]) :: (b, run) :: rest := by
  rw [groupRuns_cons, h]

theorem groupRuns_flatten (l : List RC) :
    ((groupRuns l).map (·.2)).flatten = l := by
  induction l with
  | nil => rfl
  | cons r l ih =>
    cases hg : groupRuns l with
    | nil =>
      rw [groupRuns_cons_nil r l hg]
      rw [hg] at ih
      simp at ih
      simp [ih.symm]
    | cons g rest =>
      obtain ⟨b, run⟩ := g
      rw [groupRuns_cons_cons r l b run rest hg]
      rw [hg] at ih
      by_cases hrb : r.branch = b
      · rw [if_pos hrb]
        simp only [List.map_cons, List.flatten_cons] at ih ⊢
        rw [List.cons_append, ih]
      · rw [if_neg hrb]
        simp only [List.map_cons, List.flatten_cons] at ih ⊢
        rw [List.singleton_append, ih]

theorem runKeys_cons_head (r : RC) (l : List RC) :
    (runKeys (r :: l)).head? = some r.branch := by
  cases hg : groupRuns l with
  | nil => rw [runKeys, groupRuns_cons_nil r l hg]; rfl
  | cons g rest =>
    obtain ⟨b, run⟩ := g
    rw [runKeys, groupRuns_cons_cons r l b run rest hg]
    by_cases hrb : r.branch = b
    · rw [if_pos hrb]; simp [hrb]
    · rw [if_neg hrb]; simp

theorem runKeys_mem (l : List RC) (k : Option String) (hk : k ∈ runKeys l) :
    ∃ r, r ∈ l ∧ r.branch = k := by
  induction l with
  | nil => cases hk
  | cons r l ih =>
    cases hg : groupRuns l with
    | nil =>
      rw [runKeys, groupRuns_cons_nil r l hg] at hk
      simp at hk
      exact ⟨r, List.mem_cons_self _ _, hk.symm⟩
    | cons g rest =>
      obtain ⟨b, run⟩ := g
      rw [runKeys, groupRuns_cons_cons r l b run rest hg] at hk
      by_cases hrb : r.branch = b
      · rw [if_pos hrb] at hk
        have hk2 : k ∈ runKeys l := by
          rw [runKeys, hg]
          simpa using hk
        obtain ⟨r2, hr2, hb2⟩ := ih hk2
        exact ⟨r2, List.mem_cons_of_mem _ hr2, hb2⟩
      · rw [if_neg hrb] at hk
        simp at hk
        rcases hk with hk | hk | hk
        · exact ⟨r, List.mem_cons_self _ _, hk.symm⟩
        · have hk2 : k ∈ runKeys l := by
            rw [runKeys, hg]
            simp [hk]
          obtain ⟨r2, hr2, hb2⟩ := ih hk2
          exact ⟨r2, List.mem_cons_of_mem _ hr2, hb2⟩
        · have hk2 : k ∈ runKeys l := by
            rw [runKeys, hg]
            simp
            right
            exact hk
          obtain ⟨r2, hr2, hb2⟩ := ih hk2
          exact ⟨r2, List.mem_cons_of_mem _ hr2, hb2⟩

theorem groupRuns_eq_nil (l : List RC) (h : groupRuns l = []) : l = [] := by
  have h2 := groupRuns_flatten l
  rw [h] at h2
  simpa using h2.symm

theorem runKeys_count_le (x : String) :
    ∀ (cs : List Commit) (pb : Option String) (st : Bool) (rs : List RC),
      resolveChain pb st cs = .ok rs →
      (∀ r ∈ rs, truthy r.branch = true) →
      (runKeys rs).count (some x) ≤
        (labels cs).count x +
          (if (runKeys rs).head? = some (some x) ∧ pb = some x then 1 else 0) := by
  intro cs
  induction cs with
  | nil =>
    intro pb st rs h hnn
    cases resolveChain_nil_ok h
    simp [runKeys, groupRuns]
  | cons c cs ih =>
    intro pb st rs h hnn
    obtain ⟨b, rs', hb, hr, hrs⟩ := resolveChain_cons_ok h
    subst hrs
    have htb : truthy b = true := hnn _ (List.mem_cons_self _ _)
    have hs : (st || c.msgHasStop) = false := by
      cases hcase : (st || c.msgHasStop)
      · rfl
      · rw [hcase] at hb
        rw [ghBranchStep_stopped hb] at htb
        simp [truthy] at htb
    rw [hs] at hb hr ⊢
    have hnn2 : ∀ r ∈ rs', truthy r.branch = true := fun r hm =>
      hnn r (List.mem_cons_of_mem _ hm)
    have hhead : (runKeys ((⟨c, false, b⟩ : RC) :: rs')).head? = some b :=
      runKeys_cons_head _ _
    rw [hhead]
    have ihh := ih b false rs' hr hnn2
    cases hts : c.msgTrailers with
    | nil =>
      have hbp : pb = b := by
        simpa [ghBranchStep, hts] using hb
      simp only [hbp]
      have hlab : labels (c :: cs) = labels cs := by simp [labels, hts]
      rw [hlab]
      cases hg : groupRuns rs' with
      | nil =>
        have hrs2 : rs' = [] := groupRuns_eq_nil rs' hg
        subst hrs2
        have hcs : cs = [] := by simpa using (resolveChain_map_c hr).symm
        subst hcs
        have hkeq : runKeys [(⟨c, false, b⟩ : RC)] = [b] := by
          rw [runKeys, groupRuns_cons_nil _ [] rfl]
          rfl
        rw [hkeq]
        by_cases hbx : b = some x
        · simp [hbx, labels, List.count_cons]
        · simp [hbx, labels, List.count_cons]
      | cons g rest =>
        obtain ⟨k, run⟩ := g
        have hkeys2 : runKeys rs' = k :: rest.map (·.1) := by rw [runKeys, hg]; rfl
        have hhead2 : (runKeys rs').head? = some k := by rw [hkeys2]; rfl
        rw [hhead2] at ihh
        by_cases hbk : b = k
        · have hkeq : runKeys ((⟨c, false, b⟩ : RC) :: rs') = runKeys rs' := by
            rw [runKeys, groupRuns_cons_cons _ rs' k run rest hg]
            rw [if_pos (show (⟨c, false, b⟩ : RC).branch = k from hbk)]
            rw [hkeys2]
            rfl
          rw [hkeq]
          subst hbk
          by_cases hbx : b = some x
          · simp [hbx] at ihh ⊢
            omega
          · simp [hbx] at ihh ⊢
            omega
        · have hkeq : runKeys ((⟨c, false, b⟩ : RC) :: rs') = b :: runKeys rs' := by
            rw [runKeys, groupRuns_cons_cons _ rs' k run rest hg]
            rw [if_neg (show ¬(⟨c, false, b⟩ : RC).branch = k from hbk)]
            rw [hkeys2]
            rfl
          rw [hkeq]
          by_cases hbx : b = some x
          · have hkx : ¬ k = some x := fun hkx => hbk (hbx.trans hkx.symm)
            simp [hbx, hkx, List.count_cons] at ihh ⊢
            omega
          · simp [hbx, List.count_cons] at ihh ⊢
            omega
    | cons y ys =>
      cases ys with
      | nil =>
        have hby : b = some y := by
          simpa [ghBranchStep, hts] using hb.symm
        have hlab : labels (c :: cs) = y :: labels cs := by simp [labels, hts]
        rw [hlab]
        cases hg : groupRuns rs' with
        | nil =>
          have hrs2 : rs' = [] := groupRuns_eq_nil rs' hg
          subst hrs2
          have hcs : cs = [] := by simpa using (resolveChain_map_c hr).symm
          subst hcs
          have hkeq : runKeys [(⟨c, false, b⟩ : RC)] = [b] := by
            rw [runKeys, groupRuns_cons_nil _ [] rfl]
            rfl
          rw [hkeq]
          by_cases hyx : y = x
          · simp [labels, hby, hyx, List.count_cons]
          · simp [labels, hby, hyx, List.count_cons]
        | cons g rest =>
          obtain ⟨k, run⟩ := g
          have hkeys2 : runKeys rs' = k :: rest.map (·.1) := by rw [runKeys, hg]; rfl
          have hhead2 : (runKeys rs').head? = some k := by rw [hkeys2]; rfl
          rw [hhead2] at ihh
          by_cases hbk : b = k
          · have hkeq : runKeys ((⟨c, false, b⟩ : RC) :: rs') = runKeys rs' := by
              rw [runKeys, groupRuns_cons_cons _ rs' k run rest hg]
              rw [if_pos (show (⟨c, false, b⟩ : RC).branch = k from hbk)]
              rw [hkeys2]
              rfl
            rw [hkeq]
            subst hbk
            by_cases hbx : b = some x
            · have hyx : y = x := by
                rw [hby] at hbx
                exact Option.some.inj hbx
              simp [hbx, hyx, List.count_cons] at ihh ⊢
              omega
            · by_cases hyx : y = x
              · simp [hbx, hyx, List.count_cons] at ihh ⊢
                omega
              · simp [hbx, hyx, List.count_cons] at ihh ⊢
                omega
          · have hkeq : runKeys ((⟨c, false, b⟩ : RC) :: rs') = b :: runKeys rs' := by
              rw [runKeys, groupRuns_cons_cons _ rs' k run rest hg]
              rw [if_neg (show ¬(⟨c, false, b⟩ : RC).branch = k from hbk)]
              rw [hkeys2]
              rfl
            rw [hkeq]
            by_cases hbx : b = some x
            · have hyx : y = x := by
                rw [hby] at hbx
                exact Option.some.inj hbx
              have hkx : ¬ k = some x := fun hkx => hbk (hbx.trans hkx.symm)
              simp [hbx, hkx, hyx, List.count_cons] at ihh ⊢
              omega
            · have hyx : ¬ y = x := fun hyx => hbx (by rw [hby, hyx])
              simp [hbx, hyx, List.count_cons] at ihh ⊢
              omega
      | cons y2 ys2 =>
        exfalso
        simp [ghBranchStep, hts] at hb

theorem count_le_one_of_nodup {α : Type} [BEq α] [LawfulBEq α] {l : List α}
    (h : l.Nodup) (a : α) : l.count a ≤ 1 := by
  induction l with
  | nil => simp
  | cons b t ih =>
    obtain ⟨hnm, hnd⟩ := List.nodup_cons.mp h
    rw [List.count_cons]
    by_cases hab : a = b
    · subst hab
      have h0 : t.count a = 0 := List.count_eq_zero_of_not_mem hnm
      simp [h0]
    · have hne : (b == a) = false := by
        simp only [beq_eq_false_iff_ne, ne_eq]
        exact fun hba => hab hba.symm
      simp [hne]
      exact ih hnd

theorem nodup_of_count_le_one {α : Type} [BEq α] [LawfulBEq α] {l : List α}
    (h : ∀ a, l.count a ≤ 1) : l.Nodup := by
  induction l with
  | nil => exact List.nodup_nil
  | cons b t ih =>
    refine List.nodup_cons.mpr ⟨?_, ih fun a => le_trans (Nat.le_add_right _ _)
      (by rw [← List.count_cons]; exact h a)⟩
    intro hmem
    have h2 := h b
    rw [List.count_cons] at h2
    have hpos : 0 < t.count b := List.count_pos_iff.mpr hmem
    simp at h2
    omega

theorem runKeys_nodup (cs : List Commit) (rs : List RC)
    (h : resolveChain none false cs = .ok rs)
    (hnn : ∀ r ∈ rs, truthy r.branch = true)
    (hnd : (labels cs).Nodup) : (runKeys rs).Nodup := by
  refine nodup_of_count_le_one fun k => ?_
  cases k with
  | none =>
    have h0 : (runKeys rs).count none = 0 := by
      refine List.count_eq_zero_of_not_mem fun hmem => ?_
      obtain ⟨r, hrm, hbr⟩ := runKeys_mem _ _ hmem
      have htr := hnn r hrm
      rw [hbr] at htr
      simp [truthy] at htr
    omega
  | some x =>
    have hle := runKeys_count_le x cs none false rs h hnn
    have hmax : (labels cs).count x ≤ 1 := count_le_one_of_nodup hnd x
    have hind : (if (runKeys rs).head? = some (some x) ∧ (none : Option String) = some x
        then 1 else 0) = 0 := by simp
    rw [hind] at hle
    omega

theorem groupRuns_mem (rs : List RC) (g : Option String × List RC)
    (hg : g ∈ groupRuns rs) (r : RC) (hr : r ∈ g.2) : r ∈ rs := by
  have hfl := groupRuns_flatten rs
  rw [← hfl]
  exact List.mem_flatten_of_mem (List.mem_map_of_mem _ hg) hr

theorem runKeys_truthy (rs : List RC)
    (hnn : ∀ r ∈ rs, truthy r.branch = true) :
    ∀ g ∈ groupRuns rs, truthy g.1 = true := by
  intro g hg
  have hk : g.1 ∈ runKeys rs := List.mem_map_of_mem _ hg
  obtain ⟨r, hrm, hbr⟩ := runKeys_mem _ _ hk
  rw [← hbr]
  exact hnn r hrm

theorem mergeOffenders_eq_nil (rs : List RC)
    (hm : ∀ r ∈ rs, r.c.isMergeCommit = false) : mergeOffenders rs = [] := by
  rw [mergeOffenders, List.filter_eq_nil_iff]
  intro r hr
  simp [hm r hr]

theorem repeatedOffenders_eq_nil (rs : List RC) (hnd : (runKeys rs).Nodup) :
    repeatedOffenders rs = [] := by
  rw [repeatedOffenders, List.filter_eq_nil_iff]
  intro b hb
  have hle := count_le_one_of_nodup hnd b
  simp
  omega

theorem orphanOffenders_eq_nil (rs : List RC)
    (hnn : ∀ r ∈ rs, truthy r.branch = true) : orphanOffenders rs = [] := by
  rw [orphanOffenders]
  have hfil : (((groupRuns rs).drop 1).dropLast).filter (fun g => !truthy g.1) = [] := by
    rw [List.filter_eq_nil_iff]
    intro g hg
    have hgm : g ∈ groupRuns rs :=
      List.drop_subset 1 _ (List.dropLast_subset _ hg)
    simp [runKeys_truthy rs hnn g hgm]
  rw [hfil]
  rfl

theorem validate_ok_of (rs : List RC)
    (hm : mergeOffenders rs = [])
    (hrep : repeatedOffenders rs = [])
    (horp : orphanOffenders rs = []) :
    validateBranchCommits rs = .ok () := by
  rw [validateBranchCommits, hm, hrep, horp]
  rfl

theorem resolveAndCheck_of_resolveChain (cs : List Commit) (rs : List RC)
    (h : resolveChain none false cs = .ok rs)
    (hnn : ∀ r ∈ rs, truthy r.branch = true) :
    resolveAndCheck cs = .ok rs := by
  cases cs with
  | nil =>
    cases resolveChain_nil_ok h
    rfl
  | cons c rest =>
    obtain ⟨b, rs', hb, hr, hrs⟩ := resolveChain_cons_ok h
    rw [Bool.false_or] at hb hr
    subst hrs
    have htb : truthy b = true := by
      have hx := hnn _ (List.mem_cons_self _ _)
      simpa using hx
    simp [resolveAndCheck, hb, htb, hr, Except.bind, Bind.bind]

theorem branchCommits_ok (cs : List Commit) (rs : List RC)
    (h : resolveChain none false cs = .ok rs)
    (hnn : ∀ r ∈ rs, truthy r.branch = true)
    (hval : validateBranchCommits rs = .ok ()) :
    branchCommits cs = .ok rs := by
  simp [branchCommits, resolveAndCheck_of_resolveChain cs rs h hnn, hval,
    Except.bind, Bind.bind]

theorem resolveChain_stopped_false (cs : List Commit) (rs : List RC)
    (h : resolveChain none false cs = .ok rs)
    (hnn : ∀ r ∈ rs, truthy r.branch = true) :
    ∀ r ∈ rs, r.stopped = false := by
  intro r hr
  cases hcase : r.stopped
  · rfl
  · have hbn := resolveChain_stopped_branch_none h r hr hcase
    have htr := hnn r hr
    rw [hbn] at htr
    simp [truthy] at htr

theorem groupedCommits_of (pfx : String) (cs : List Commit) (rs : List RC)
    (h : resolveChain none false cs = .ok rs)
    (hnn : ∀ r ∈ rs, truthy r.branch = true)
    (hval : validateBranchCommits rs = .ok ()) :
    groupedCommits pfx cs =
      .ok ((groupRuns rs).map (fun g => (pfx ++ g.1.getD "", g.2))) := by
  have hfil : (groupRuns rs).filter
      (fun g => truthy g.1 && !((g.2.head?.map (·.stopped)).getD false)) = groupRuns rs := by
    rw [List.filter_eq_self]
    intro g hg
    have ht := runKeys_truthy rs hnn g hg
    have hstop : ((g.2.head?.map (·.stopped)).getD false) = false := by
      cases hgl : g.2 with
      | nil => rfl
      | cons r t =>
        have hrm : r ∈ rs := groupRuns_mem rs g hg r (by rw [hgl]; exact List.mem_cons_self _ _)
        simp [resolveChain_stopped_false cs rs h hnn r hrm]
    rw [ht, hstop]
    rfl
  simp [groupedCommits, branchCommits_ok cs rs h hnn hval, hfil,
    Except.bind, Bind.bind]

/-- C6 counterexample: the chain `A(br=x) -> B(STOP)` has no merge commits and
no duplicated branch labels, and grouping followed by validation succeeds, but
the produced segments concatenate to `[A]` only: the stopped suffix commit is
dropped, so the concatenation is not the original chain. -/
theorem c6_counterexample :
    (∀ c2 ∈ c6cs, c2.isMergeCommit = false) ∧ (labels c6cs).Nodup ∧
    (groupedCommits "" c6cs).map (fun segs => ((segs.map (·.2)).flatten).map (·.c)) =
      .ok [(⟨"a", "feat\n\ngit-pr-chain: x", ["x"], false, false⟩ : Commit)] ∧
    [(⟨"a", "feat\n\ngit-pr-chain: x", ["x"], false, false⟩ : Commit)] ≠ c6cs := by
  decide

/-- C6 (amended): for every chain with no merge commits, no duplicated branch
labels, and in which every commit resolves to a truthy (non-null) branch,
grouping followed by validation succeeds and the produced segments'
concatenated commit lists equal the original chain in order; in general the
commits of null-branch edge runs are dropped. -/
theorem c6_amended (pfx : String) (cs : List Commit) (rs : List RC)
    (hres : resolveChain none false cs = .ok rs)
    (hnn : ∀ r ∈ rs, truthy r.branch = true)
    (hnd : (labels cs).Nodup)
    (hm : ∀ c2 ∈ cs, c2.isMergeCommit = false) :
    ∃ segs, groupedCommits pfx cs = .ok segs ∧
      ((segs.map (·.2)).flatten).map (·.c) = cs := by
  have hmr : ∀ r ∈ rs, r.c.isMergeCommit = false := by
    intro r hr
    refine hm r.c ?_
    rw [← resolveChain_map_c hres]
    exact List.mem_map_of_mem _ hr
  have hval : validateBranchCommits rs = .ok () :=
    validate_ok_of rs (mergeOffenders_eq_nil rs hmr)
      (repeatedOffenders_eq_nil rs (runKeys_nodup cs rs hres hnn hnd))
      (orphanOffenders_eq_nil rs hnn)
  refine ⟨(groupRuns rs).map (fun g => (pfx ++ g.1.getD "", g.2)), ?_, ?_⟩
  · exact groupedCommits_of pfx cs rs hres hnn hval
  · have hmap : ((groupRuns rs).map (fun g => (pfx ++ g.1.getD "", g.2))).map (·.2) =
        (groupRuns rs).map (·.2) := by
      rw [List.map_map]
      rfl
    rw [hmap, groupRuns_flatten]
    exact resolveChain_map_c hres

/-- C6 witness: the fully annotated chain `A(br=x) -> B -> C(br=y)` groups into
segments whose concatenation is the original chain. -/
theorem c6_witness :
    ∃ segs, groupedCommits "" c6wcs = .ok segs ∧
      ((segs.map (·.2)).flatten).map (·.c) = c6wcs :=
  c6_amended "" c6wcs c6wrs (by decide) (by decide) (by decide) (by decide)

theorem repeatedOffenders_mem (rs : List RC) (x : String)
    (hcount : 2 ≤ (runKeys rs).count (some x)) :
    some x ∈ repeatedOffenders rs := by
  rw [repeatedOffenders, List.mem_filter]
  constructor
  · exact List.mem_dedup.mpr (List.count_pos_iff.mp (by omega))
  · simp
    omega

/-- C7: for every resolved chain in which some non-null branch name labels more
than one adjacency run, validation fails fatally; and in the absence of merge
commits the failure is precisely the repeated-branch error with the offending
name among the reported branches. -/
theorem c7_confirmed :
    (∀ (rs : List RC) (x : String), 2 ≤ (runKeys rs).count (some x) →
      ∃ e, validateBranchCommits rs = .error e) ∧
    (∀ (rs : List RC) (x : String), mergeOffenders rs = [] →
      2 ≤ (runKeys rs).count (some x) →
      validateBranchCommits rs = .error (.repeatedBranches (repeatedOffenders rs)) ∧
      some x ∈ repeatedOffenders rs) := by
  constructor
  · intro rs x hcount
    rw [validateBranchCommits]
    by_cases hme : (mergeOffenders rs).isEmpty = true
    · rw [if_pos hme]
      have hne : ¬ (repeatedOffenders rs).isEmpty = true := by
        have hmem := repeatedOffenders_mem rs x hcount
        cases hre : repeatedOffenders rs
        · rw [hre] at hmem; cases hmem
        · simp [hre]
      rw [if_neg hne]
      exact ⟨_, rfl⟩
    · rw [if_neg hme]
      exact ⟨_, rfl⟩
  · intro rs x hme hcount
    have hmem := repeatedOffenders_mem rs x hcount
    refine ⟨?_, hmem⟩
    rw [validateBranchCommits]
    rw [if_pos (by rw [hme]; rfl)]
    have hne : ¬ (repeatedOffenders rs).isEmpty = true := by
      cases hre : repeatedOffenders rs
      · rw [hre] at hmem; cases hmem
      · simp [hre]
    rw [if_neg hne]

/-- C7 witness: the chain `A(br=x) -> B(br=y) -> C(br=x)` fails validation with
the repeated-branch error, and branch `x` is among the reported names. -/
theorem c7_witness :
    validateBranchCommits c7rs = .error (.repeatedBranches (repeatedOffenders c7rs)) ∧
    some "x" ∈ repeatedOffenders c7rs :=
  c7_confirmed.2 c7rs "x" (by decide) (by decide)

theorem validate_merge_error (rs : List RC) (hne : mergeOffenders rs ≠ []) :
    validateBranchCommits rs =
      .error (.mergeCommits ((mergeOffenders rs).map (fun r => r.c.sha))) := by
  rw [validateBranchCommits, if_neg (by simpa using hne)]

theorem validate_repeated_error (rs : List RC) (hm : mergeOffenders rs = [])
    (hne : repeatedOffenders rs ≠ []) :
    validateBranchCommits rs = .error (.repeatedBranches (repeatedOffenders rs)) := by
  rw [validateBranchCommits, if_pos (by rw [hm]; rfl), if_neg (by simpa using hne)]

theorem validate_orphan_error (rs : List RC) (hm : mergeOffenders rs = [])
    (hrep : repeatedOffenders rs = []) (hne : orphanOffenders rs ≠ []) :
    validateBranchCommits rs =
      .error (.commitsWithoutBranch ((orphanOffenders rs).map (fun r => r.c.sha))) := by
  rw [validateBranchCommits, if_pos (by rw [hm]; rfl), if_pos (by rw [hrep]; rfl),
    if_neg (by simpa using hne)]

theorem ghBranchStep_ok_of_not_multi (pb : Option String) (s : Bool) (c : Commit)
    (h : ¬ (s = false ∧ 2 ≤ c.msgTrailers.length)) :
    ∃ b, ghBranchStep pb s c = .ok b := by
  rw [ghBranchStep]
  cases hs : s
  · rw [if_neg (by simp)]
    cases hts : c.msgTrailers with
    | nil => exact ⟨pb, rfl⟩
    | cons y ys =>
      cases ys with
      | nil => exact ⟨some y, rfl⟩
      | cons y2 ys2 =>
        exfalso
        refine h ⟨hs, ?_⟩
        rw [hts]
        simp
  · rw [if_pos rfl]
    exact ⟨none, rfl⟩

theorem resolveChain_error_firstMulti :
    ∀ (cs : List Commit) (st : Bool) (c : Commit) (pb : Option String),
      firstMultiTrailer st cs = some c →
      resolveChain pb st cs = .error (.multipleTrailers c.sha) := by
  intro cs
  induction cs with
  | nil =>
    intro st c pb h
    cases h
  | cons c0 cs ih =>
    intro st c pb h
    rw [firstMultiTrailer] at h
    by_cases hcond : (st || c0.msgHasStop) = false ∧ 2 ≤ c0.msgTrailers.length
    · rw [if_pos hcond] at h
      cases h
      obtain ⟨hst, hlen⟩ := hcond
      have hstep : ghBranchStep pb (st || c0.msgHasStop) c0 =
          .error (.multipleTrailers c0.sha) := by
        rw [ghBranchStep, hst, if_neg (by simp)]
        cases hts : c0.msgTrailers with
        | nil =>
          rw [hts] at hlen
          simp at hlen
        | cons y ys =>
          cases ys with
          | nil =>
            rw [hts] at hlen
            simp at hlen
          | cons y2 ys2 => rfl
      simp [resolveChain, hstep, Except.bind, Bind.bind]
    · rw [if_neg hcond] at h
      obtain ⟨b, hstep⟩ := ghBranchStep_ok_of_not_multi pb (st || c0.msgHasStop) c0
        (by
          intro hx
          refine hcond ⟨?_, hx.2⟩
          cases hor : (st || c0.msgHasStop)
          · rfl
          · rw [hor] at hx
            cases hx.1)
      have hrest := ih (st || c0.msgHasStop) c b h
      simp [resolveChain, hstep, hrest, Except.bind, Bind.bind]

theorem checkMultiplePRs_error_first :
    ∀ (segs : List String) (openPRs : List (String × List PRrec)) (b : String),
      firstAmbiguousBranch segs openPRs = some b →
      checkMultiplePRs segs openPRs =
        .error (.multipleOpenPRs b ((prsFor openPRs b).map (·.number))) := by
  intro segs
  induction segs with
  | nil =>
    intro o b h
    cases h
  | cons sg rest ih =>
    intro o b h
    rw [firstAmbiguousBranch] at h
    rw [checkMultiplePRs]
    by_cases hc : 2 ≤ (prsFor o sg).length
    · rw [if_pos hc] at h
      cases h
      rw [if_pos hc]
    · rw [if_neg hc] at h
      rw [if_neg hc]
      exact ih o b h

/-- C5 counterexample: the chain has two commits with duplicate branch
trailers, but the fatal error reports only the first one (`a`); commit `b` is
an offender of the same class and is absent from the reported identifiers. -/
theorem c5_counterexample :
    branchCommits c5cs = .error (.multipleTrailers "a") ∧
    (c5cs.filter (fun c2 => 2 ≤ c2.msgTrailers.length)).map (·.sha) = ["a", "b"] ∧
    "b" ∉ reportedIds (GPCErr.multipleTrailers "a") := by
  decide

/-- C5 (amended): the merge-commit, repeated-branch and orphan-run errors list
every offender of their class; the duplicate-trailer error reports only the
first offending non-stopped commit in chain order, and the
multiple-open-requests error reports only the first offending branch (with all
of that branch's request numbers). -/
theorem c5_amended :
    (∀ rs : List RC, mergeOffenders rs ≠ [] →
      validateBranchCommits rs =
        .error (.mergeCommits ((mergeOffenders rs).map (fun r => r.c.sha)))) ∧
    (∀ rs : List RC, mergeOffenders rs = [] → repeatedOffenders rs ≠ [] →
      validateBranchCommits rs = .error (.repeatedBranches (repeatedOffenders rs))) ∧
    (∀ rs : List RC, mergeOffenders rs = [] → repeatedOffenders rs = [] →
      orphanOffenders rs ≠ [] →
      validateBranchCommits rs =
        .error (.commitsWithoutBranch ((orphanOffenders rs).map (fun r => r.c.sha)))) ∧
    (∀ (cs : List Commit) (st : Bool) (c : Commit) (pb : Option String),
      firstMultiTrailer st cs = some c →
      resolveChain pb st cs = .error (.multipleTrailers c.sha)) ∧
    (∀ (segs : List String) (openPRs : List (String × List PRrec)) (b : String),
      firstAmbiguousBranch segs openPRs = some b →
      checkMultiplePRs segs openPRs =
        .error (.multipleOpenPRs b ((prsFor openPRs b).map (·.number)))) :=
  ⟨validate_merge_error, validate_repeated_error, validate_orphan_error,
    resolveChain_error_firstMulti, checkMultiplePRs_error_first⟩

/-- C5 witness: a resolved chain with two merge commits is rejected with both
offenders listed. -/
theorem c5_witness :
    validateBranchCommits c5rs =
      .error (.mergeCommits ((mergeOffenders c5rs).map (fun r => r.c.sha))) :=
  c5_amended.1 c5rs (by decide)

/-! Lemmas about the base-graph reconciliation walk. -/

theorem setPrBasesWalk_cons_none (prs : String → Option String) (b : String)
    (rest seen acc : List String) (hp : prs b = none) :
    setPrBasesWalk prs (b :: rest) seen acc = setPrBasesWalk prs rest seen acc := by
  rw [setPrBasesWalk, hp]

theorem setPrBasesWalk_cons_notfound (prs : String → Option String) (b : String)
    (rest seen acc : List String) (base : String) (hp : prs b = some base)
    (hf : seen.findIdx? (fun s => s == base) = none) :
    setPrBasesWalk prs (b :: rest) seen acc =
      setPrBasesWalk prs rest (seen ++ [b]) acc := by
  rw [setPrBasesWalk, hp]
  show (match seen.findIdx? (fun s => s == base) with
    | none => setPrBasesWalk prs rest (seen ++ [b]) acc
    | some idx =>
      if idx + 1 = seen.length then setPrBasesWalk prs rest (seen ++ [b]) acc
      else setPrBasesWalk prs rest (seen ++ [b]) (seen.drop (idx + 1) ++ b :: acc)) = _
  rw [hf]

theorem setPrBasesWalk_cons_last (prs : String → Option String) (b : String)
    (rest seen acc : List String) (base : String) (idx : Nat)
    (hp : prs b = some base)
    (hf : seen.findIdx? (fun s => s == base) = some idx)
    (hl : idx + 1 = seen.length) :
    setPrBasesWalk prs (b :: rest) seen acc =
      setPrBasesWalk prs rest (seen ++ [b]) acc := by
  rw [setPrBasesWalk, hp]
  show (match seen.findIdx? (fun s => s == base) with
    | none => setPrBasesWalk prs rest (seen ++ [b]) acc
    | some idx =>
      if idx + 1 = seen.length then setPrBasesWalk prs rest (seen ++ [b]) acc
      else setPrBasesWalk prs rest (seen ++ [b]) (seen.drop (idx + 1) ++ b :: acc)) = _
  rw [hf]
  show (if idx + 1 = seen.length then setPrBasesWalk prs rest (seen ++ [b]) acc
    else setPrBasesWalk prs rest (seen ++ [b]) (seen.drop (idx + 1) ++ b :: acc)) = _
  rw [if_pos hl]

theorem setPrBasesWalk_cons_flag (prs : String → Option String) (b : String)
    (rest seen acc : List String) (base : String) (idx : Nat)
    (hp : prs b = some base)
    (hf : seen.findIdx? (fun s => s == base) = some idx)
    (hl : ¬ idx + 1 = seen.length) :
    setPrBasesWalk prs (b :: rest) seen acc =
      setPrBasesWalk prs rest (seen ++ [b]) (seen.drop (idx + 1) ++ b :: acc) := by
  rw [setPrBasesWalk, hp]
  show (match seen.findIdx? (fun s => s == base) with
    | none => setPrBasesWalk prs rest (seen ++ [b]) acc
    | some idx =>
      if idx + 1 = seen.length then setPrBasesWalk prs rest (seen ++ [b]) acc
      else setPrBasesWalk prs rest (seen ++ [b]) (seen.drop (idx + 1) ++ b :: acc)) = _
  rw [hf]
  show (if idx + 1 = seen.length then setPrBasesWalk prs rest (seen ++ [b]) acc
    else setPrBasesWalk prs rest (seen ++ [b]) (seen.drop (idx + 1) ++ b :: acc)) = _
  rw [if_neg hl]

theorem setPrBasesWalk_append (prs : String → Option String) :
    ∀ (rest seen acc : List String),
      setPrBasesWalk prs rest seen acc = setPrBasesWalk prs rest seen [] ++ acc := by
  intro rest
  induction rest with
  | nil =>
    intro seen acc
    rfl
  | cons b rest ih =>
    intro seen acc
    cases hp : prs b with
    | none =>
      rw [setPrBasesWalk_cons_none prs b rest seen acc hp,
        setPrBasesWalk_cons_none prs b rest seen [] hp]
      exact ih seen acc
    | some base =>
      cases hf : seen.findIdx? (fun s => s == base) with
      | none =>
        rw [setPrBasesWalk_cons_notfound prs b rest seen acc base hp hf,
          setPrBasesWalk_cons_notfound prs b rest seen [] base hp hf]
        exact ih (seen ++ [b]) acc
      | some idx =>
        by_cases hl : idx + 1 = seen.length
        · rw [setPrBasesWalk_cons_last prs b rest seen acc base idx hp hf hl,
            setPrBasesWalk_cons_last prs b rest seen [] base idx hp hf hl]
          exact ih (seen ++ [b]) acc
        · rw [setPrBasesWalk_cons_flag prs b rest seen acc base idx hp hf hl,
            setPrBasesWalk_cons_flag prs b rest seen [] base idx hp hf hl]
          rw [ih (seen ++ [b]) (seen.drop (idx + 1) ++ b :: acc),
            ih (seen ++ [b]) (seen.drop (idx + 1) ++ b :: [])]
          simp

theorem findIdx_none_of_not_mem (l : List String) (a : String) (h : a ∉ l) :
    l.findIdx? (fun s => s == a) = none := by
  rw [List.findIdx?_eq_none_iff]
  intro x hx
  simp
  exact fun he => h (he ▸ hx)

theorem setPrBasesWalk_idem_aux (prs : String → Option String) (master : String)
    (R : List String) (prs2 : String → Option String)
    (hprs2 : ∀ b, prs2 b =
      if b ∈ R ∧ b ≠ master then (prs b).map (fun _ => master) else prs b) :
    ∀ (rest seen : List String), master ∉ seen → master ∉ rest →
      (∀ x, x ∈ setPrBasesWalk prs rest seen [] → x ∈ R) →
      setPrBasesWalk prs2 rest seen [] = [] := by
  intro rest
  induction rest with
  | nil =>
    intro seen _ _ _
    rfl
  | cons b rest ih =>
    intro seen hms hmr hsub
    have hbm : b ≠ master := fun he => hmr (he ▸ List.mem_cons_self _ _)
    have hmr2 : master ∉ rest := fun hm => hmr (List.mem_cons_of_mem _ hm)
    have hseen2 : master ∉ seen ++ [b] := by
      intro hmem
      rcases List.mem_append.mp hmem with h1 | h1
      · exact hms h1
      · simp at h1
        exact hbm h1.symm
    cases hp : prs b with
    | none =>
      have hp2 : prs2 b = none := by
        rw [hprs2]
        by_cases hbR : b ∈ R ∧ b ≠ master
        · rw [if_pos hbR, hp]
          rfl
        · rw [if_neg hbR]
          exact hp
      rw [setPrBasesWalk_cons_none prs2 b rest seen [] hp2]
      refine ih seen hms hmr2 fun x hx => hsub x ?_
      rw [setPrBasesWalk_cons_none prs b rest seen [] hp]
      exact hx
    | some base =>
      by_cases hbR : b ∈ R
      · have hp2 : prs2 b = some master := by
          rw [hprs2, if_pos ⟨hbR, hbm⟩, hp]
          rfl
        have hf2 : seen.findIdx? (fun s => s == master) = none :=
          findIdx_none_of_not_mem seen master hms
        rw [setPrBasesWalk_cons_notfound prs2 b rest seen [] master hp2 hf2]
        refine ih (seen ++ [b]) hseen2 hmr2 fun x hx => hsub x ?_
        cases hf : seen.findIdx? (fun s => s == base) with
        | none =>
          rw [setPrBasesWalk_cons_notfound prs b rest seen [] base hp hf]
          exact hx
        | some idx =>
          by_cases hl : idx + 1 = seen.length
          · rw [setPrBasesWalk_cons_last prs b rest seen [] base idx hp hf hl]
            exact hx
          · rw [setPrBasesWalk_cons_flag prs b rest seen [] base idx hp hf hl]
            rw [setPrBasesWalk_append prs rest (seen ++ [b])
              (seen.drop (idx + 1) ++ b :: [])]
            exact List.mem_append_left _ hx
      · have hp2 : prs2 b = some base := by
          rw [hprs2, if_neg (fun hx => hbR hx.1)]
          exact hp
        cases hf : seen.findIdx? (fun s => s == base) with
        | none =>
          rw [setPrBasesWalk_cons_notfound prs2 b rest seen [] base hp2 hf]
          refine ih (seen ++ [b]) hseen2 hmr2 fun x hx => hsub x ?_
          rw [setPrBasesWalk_cons_notfound prs b rest seen [] base hp hf]
          exact hx
        | some idx =>
          by_cases hl : idx + 1 = seen.length
          · rw [setPrBasesWalk_cons_last prs2 b rest seen [] base idx hp2 hf hl]
            refine ih (seen ++ [b]) hseen2 hmr2 fun x hx => hsub x ?_
            rw [setPrBasesWalk_cons_last prs b rest seen [] base idx hp hf hl]
            exact hx
          · exfalso
            refine hbR (hsub b ?_)
            rw [setPrBasesWalk_cons_flag prs b rest seen [] base idx hp hf hl]
            rw [setPrBasesWalk_append prs rest (seen ++ [b])
              (seen.drop (idx + 1) ++ b :: [])]
            refine List.mem_append_right _ ?_
            exact List.mem_append_right _ (List.mem_cons_self _ _)

/-- C2 counterexample: with open requests `feat1(base=root)`,
`feat2(base=feat1)` and desired order `[feat2, feat1]`, the reconciliation
walk never flags `feat1`: its recorded base (`root`) is not among the
previously seen segment branches when `feat1` is visited. -/
theorem c2_counterexample : "feat1" ∉ resetBranches c2segs c2prs := by
  decide

/-- C2 (amended): on the input of the example, reconciliation flags neither
request — the computed reset set is empty and no base-update operation is
emitted for either `feat1` or `feat2`. -/
theorem c2_amended :
    resetBranches c2segs c2prs = [] ∧
    emittedBaseUpdates "root" c2segs c2prs = [] ∧
    baseResetActions false "root" c2segs c2prs = [] := by
  decide

/-- C8 counterexample: with segments `[master, c, b]` (a segment literally
named like the root branch) and recorded bases `master -> other`, `c -> zzz`,
`b -> master`, the first run resets `{c, b}`; after those resets are applied,
a second run recomputes the same nonempty reset set instead of the empty one. -/
theorem c8_counterexample :
    resetBranches exSegs exPrs = ["c", "b"] ∧
    resetBranches exSegs (prsAfter "master" exSegs exPrs) = ["c", "b"] := by
  decide

/-- C8 (amended): base-graph reconciliation is idempotent provided no desired
segment branch is named exactly like the root branch: once one run's resets
are applied and nothing else changes, a second run computes an empty reset set
and emits no base-update operations. -/
theorem c8_amended (master : String) (segs : List String)
    (prs : String → Option String) (h : master ∉ segs) :
    resetBranches segs (prsAfter master segs prs) = [] ∧
    emittedBaseUpdates master segs (prsAfter master segs prs) = [] := by
  have h1 : resetBranches segs (prsAfter master segs prs) = [] := by
    refine setPrBasesWalk_idem_aux prs master (resetBranches segs prs) _
      (fun b => rfl) segs [] (by simp) h fun x hx => hx
  refine ⟨h1, ?_⟩
  rw [emittedBaseUpdates, h1]
  rfl

/-- C8 witness: a two-segment order with a stale-free request state stays
empty on the second run. -/
theorem c8_witness :
    resetBranches ["s1", "s2"] (prsAfter "root" ["s1", "s2"] c8wprs) = [] ∧
    emittedBaseUpdates "root" ["s1", "s2"] (prsAfter "root" ["s1", "s2"] c8wprs) = [] :=
  c8_amended "root" ["s1", "s2"] c8wprs (by decide)

/-- C9 counterexample: branch `b` is placed in the reset set while its
recorded base is already the root branch, yet the base-update call for `b` is
still emitted — the code has no already-at-root check. -/
theorem c9_counterexample :
    "b" ∈ resetBranches exSegs exPrs ∧ exPrs "b" = some "master" ∧
    Action.editPRBase "b" "master" ∈ baseResetActions false "master" exSegs exPrs := by
  decide

/-- C9 (amended): for every segment in the accumulated reset set other than
the root, a base-update operation setting its base to the root branch is
emitted unconditionally, regardless of whether its current base is already the
root; the root itself is never edited. -/
theorem c9_amended (master : String) (segs : List String)
    (prs : String → Option String) (b : String)
    (hb : b ∈ resetBranches segs prs) (hbm : b ≠ master) :
    Action.editPRBase b master ∈ baseResetActions false master segs prs ∧
    (∀ base : String,
      Action.editPRBase master base ∉ baseResetActions false master segs prs) := by
  constructor
  · rw [baseResetActions, if_neg (by simp)]
    refine List.mem_map_of_mem _ ?_
    rw [emittedBaseUpdates]
    refine List.mem_dedup.mpr (List.mem_filter.mpr ⟨hb, ?_⟩)
    simp [hbm]
  · intro base hmem
    rw [baseResetActions, if_neg (by simp)] at hmem
    obtain ⟨b2, hb2, he⟩ := List.mem_map.mp hmem
    have hb2m : b2 = master := by
      cases he
      rfl
    rw [emittedBaseUpdates] at hb2
    have hfil := List.mem_filter.mp (List.mem_dedup.mp hb2)
    rw [hb2m] at hfil
    simp at hfil

/-- C9 witness: branch `b` of the concrete scenario gets its base-update
emitted, and the root branch never does. -/
theorem c9_witness :
    Action.editPRBase "b" "master" ∈ baseResetActions false "master" exSegs exPrs ∧
    (∀ base : String,
      Action.editPRBase "master" base ∉ baseResetActions false "master" exSegs exPrs) :=
  c9_amended "master" exSegs exPrs "b" (by decide) (by decide)

/-- C3 (code bug): with dry-run enabled and a segment whose branch has no open
request, `create_and_update_prs` aborts with the "Expected one open PR for x,
but was 0.  This should not happen here!" fatal instead of reporting the full
intended diff — dry-run suppressed the creation, so the request never entered
the index the update loop reads.  Dry-run does suppress every mutating call:
the same input without dry-run creates and edits; a dry run that completes
(every branch already has exactly one request) emits no action; and the push
and base-reset stages emit nothing under dry-run. -/
theorem c3_dry_run_divergence :
    createAndUpdatePRs true "master" c3segs [] c3mk c3rewr =
      .error (.expectedOnePR "x" 0) ∧
    createAndUpdatePRs false "master" c3segs [] c3mk c3rewr =
      .ok [Action.createPR "x" "master" "Add x feature", Action.editPR 0 "master" ""] ∧
    createAndUpdatePRs true "master" c3segs c3oprs c3mk c3rewr = .ok [] ∧
    pushBranches true c3segs = [] ∧
    pushBranches false c3segs = [Action.push "x" "h1"] ∧
    setPrBasesToMaster true "origin/master" ["x"] c3oprs = .ok [] := by
  decide

/-! Lemmas about the root branch name computation. -/

theorem foldl_append_length : ∀ (l : List String) (acc : String),
    (l.foldl (· ++ ·) acc).length = acc.length + (l.map String.length).sum := by
  intro l
  induction l with
  | nil =>
    intro acc
    simp
  | cons a t ih =>
    intro acc
    rw [List.foldl_cons, ih (acc ++ a)]
    rw [String.length_append]
    simp
    omega

theorem join_length (l : List String) :
    (String.join l).length = (l.map String.length).sum := by
  have h := foldl_append_length l ""
  simpa [String.join] using h

theorem joinSlash_length : ∀ (l : List String),
    (joinSlash l).length = (l.map String.length).sum + (l.length - 1) := by
  intro l
  induction l with
  | nil => simp [joinSlash]
  | cons a t ih =>
    cases t with
    | nil => simp [joinSlash]
    | cons b r =>
      rw [joinSlash, String.length_append, String.length_append, ih]
      have hone : "/".length = 1 := rfl
      rw [hone]
      simp
      omega

/-- C10: wherever the root branch name is needed it is computed by
`upstream_master` — the concatenation, with no separator, of all
slash-separated components of the tracked upstream reference after the remote
name; consequently, whenever the upstream branch name itself contains a slash
(two or more components after the remote), the computed name differs from the
actual upstream branch name. -/
theorem c10_confirmed (s : String)
    (h : 2 ≤ ((splitSlash s).drop 1).length) :
    upstream_master s ≠ joinSlash ((splitSlash s).drop 1) := by
  intro he
  have h1 : (upstream_master s).length =
      (((splitSlash s).drop 1).map String.length).sum := by
    rw [upstream_master]
    exact join_length _
  have h2 := joinSlash_length ((splitSlash s).drop 1)
  have h3 := congrArg String.length he
  rw [h1, h2] at h3
  omega

/-- C10 witness: for upstream `origin/release/1.0` the program uses
`release1.0`, which differs from the actual branch name `release/1.0`. -/
theorem c10_witness :
    2 ≤ ((splitSlash "origin/release/1.0").drop 1).length ∧
    upstream_master "origin/release/1.0" = "release1.0" ∧
    joinSlash ((splitSlash "origin/release/1.0").drop 1) = "release/1.0" ∧
    upstream_master "origin/release/1.0" ≠
      joinSlash ((splitSlash "origin/release/1.0").drop 1) :=
  ⟨by decide, by decide, by decide,
    c10_confirmed "origin/release/1.0" (by decide)⟩

end GitPrChain
